import Mathlib

/-!
Verification of the declarative configuration-merge engine of
`cloudinit/config/cc_puppet.py` (the puppet cloud-init module).

The pure text of the program (strings) is modelled as `List Char`, so that
every operation of the source is an executable Lean function.  Filesystem
and process interaction performed by the module (`util.ensure_dir`,
`util.chownbyname`, `util.write_file`, `util.rename`,
`distro.install_packages`, `util.load_file`, `util.subp`, puppet
autostart) is modelled as an ordered trace of `Effect` values, in the
order the source issues the calls.

`helpers.DefaultingConfigParser` (loading via `readfp`, `set`,
`stringify`) is code of the repository that is not part of the module
file itself; it is modelled from the specification of the
SectionedConfigStore (sections `[name]`, `key=value` lines, best-effort
parsing, set-with-overwrite, serialization in store order).
-/

/-- Program strings, modelled as lists of characters. -/
abbrev Str : Type := List Char

/-- In-memory model of a section-based `key=value` text file: an ordered
list of sections, each a name with an ordered list of key/value pairs.
Modelled from the spec: the SectionedConfigStore
(`helpers.DefaultingConfigParser` is not part of the module source). -/
structure ConfigStore where
  sections : List (Str × List (Str × Str))
deriving DecidableEq

/-- Overwrite the first occurrence of key `k` in a section's entry list,
or append `(k, v)` at the end when `k` is absent.  Modelled from the
spec: the key-level behaviour of `set(section, key, value)`. -/
def setInSection (k v : Str) : List (Str × Str) → List (Str × Str)
  | [] => [(k, v)]
  | p :: rest => if p.1 = k then (k, v) :: rest else p :: setInSection k v rest

/-- Update the first section named `s`, or append a fresh section at the
end when `s` is absent.  Modelled from the spec: the section-level
behaviour of `set(section, key, value)`. -/
def setSections (s k v : Str) : List (Str × List (Str × Str)) → List (Str × List (Str × Str))
  | [] => [(s, [(k, v)])]
  | sec :: rest =>
    if sec.1 = s then (sec.1, setInSection k v sec.2) :: rest
    else sec :: setSections s k v rest

/-- Modelled from the spec: `set(section, key, value)` of the
SectionedConfigStore (`DefaultingConfigParser.set`). -/
def setKV (st : ConfigStore) (s k v : Str) : ConfigStore :=
  ⟨setSections s k v st.sections⟩

/-- Create an empty section named `s` at the end of the store unless a
section of that name already exists (re-entering an existing section on
a duplicate header).  Modelled from the spec: header handling of `load`. -/
def ensureSection (st : ConfigStore) (s : Str) : ConfigStore :=
  if st.sections.any (fun sec => decide (sec.1 = s)) then st
  else ⟨st.sections ++ [(s, [])]⟩

/-- Split a text into its lines at newline characters (the separator the
serializer emits). -/
def splitLines : Str → List Str
  | [] => [[]]
  | c :: cs =>
    if c = '\n' then [] :: splitLines cs
    else
      match splitLines cs with
      | [] => [[c]]
      | l :: ls => (c :: l) :: ls

/-- Join lines with newline separators. -/
def joinLines : List Str → Str
  | [] => []
  | [l] => l
  | l :: ls => l ++ '\n' :: joinLines ls

/-- Strip leading whitespace from a line (`i.lstrip()` in the source,
line 161 of `cc_puppet.py`). -/
def lstrip (l : Str) : Str := l.dropWhile (fun c => c.isWhitespace)

/-- One parsing step per line: a `[name]` header line opens (or
re-enters) a section; a line containing `=` inside a section records a
key/value pair (first `=` is the delimiter); anything else is tolerated
and ignored.  Modelled from the spec: best-effort parsing of the
section-based `key=value` format. -/
def loadGo (st : ConfigStore) (cur : Option Str) : List Str → ConfigStore
  | [] => st
  | l :: ls =>
    if l.head? = some '[' ∧ l.getLast? = some ']' then
      loadGo (ensureSection st ((l.drop 1).dropLast)) (some ((l.drop 1).dropLast)) ls
    else if l.contains '=' then
      match cur with
      | some s =>
        loadGo (setKV st s (l.takeWhile (fun c => c != '='))
                 ((l.dropWhile (fun c => c != '=')).drop 1)) cur ls
      | none => loadGo st cur ls
    else loadGo st cur ls

/-- Load a text into a store: split into lines, strip leading whitespace
from each line (source lines 161-162), then parse.  The parser itself is
modelled from the spec (`DefaultingConfigParser.readfp` is not part of
the module source). -/
def load (text : Str) : ConfigStore :=
  loadGo ⟨[]⟩ none ((splitLines text).map lstrip)

/-- Render one key/value pair as a `key=value` line. -/
def renderPair (p : Str × Str) : Str := p.1 ++ '=' :: p.2

/-- Render one section as its `[name]` header line followed by its
`key=value` lines. -/
def renderSection (sec : Str × List (Str × Str)) : List Str :=
  ('[' :: (sec.1 ++ [']'])) :: sec.2.map renderPair

/-- Render a list of sections to lines, in store order. -/
def renderSecs (secs : List (Str × List (Str × Str))) : List Str :=
  (secs.map renderSection).flatten

/-- Modelled from the spec: `serialize` of the SectionedConfigStore
(`DefaultingConfigParser.stringify`): all sections in store order, each
section's pairs in the section's order, valid re-parseable form. -/
def serialize (st : ConfigStore) : Str := joinLines (renderSecs st.sections)

/-- Fuel-driven scan for `str.replace`: at each position, when the
(non-empty) pattern is a prefix, emit the replacement and skip the
pattern; otherwise copy one character.  One unit of fuel is spent per
position, and the scan starts with the subject's length as fuel, so the
fuel never runs out before the subject does. -/
def replaceFuel (pat rep : Str) : Nat → Str → Str
  | 0, s => s
  | _ + 1, [] => []
  | fuel + 1, c :: cs =>
    if pat.isPrefixOf (c :: cs) ∧ pat ≠ [] then
      rep ++ replaceFuel pat rep fuel (cs.drop (pat.length - 1))
    else c :: replaceFuel pat rep fuel cs

/-- Python `str.replace(pat, rep)` for a non-empty pattern: replace all
non-overlapping occurrences, scanning left to right (source lines
184-186 use it with the patterns `%f` and `%i`). -/
def replaceL (pat rep s : Str) : Str := replaceFuel pat rep s.length s

/-- Python `str.lower()` (ASCII case folding suffices for the values the
module handles). -/
def lowerStr (s : Str) : Str := s.map Char.toLower

/-- The literal key `ca_cert` (source line 168). -/
def caCertKey : Str := "ca_cert".data

/-- The literal key `certname` (source line 181). -/
def certnameKey : Str := "certname".data

/-- The literal top-level key `puppet` (source line 121). -/
def puppetKey : Str := "puppet".data

/-- The `%f` placeholder token (source line 184). -/
def tokF : Str := "%f".data

/-- The `%i` placeholder token (source line 186). -/
def tokI : Str := "%i".data

/-- The backup suffix appended to the config path (source line 192). -/
def oldSuffix : Str := ".old".data

/-- The certname value rewrite of source lines 181-188: substitute `%f`
by the fqdn, then `%i` by the instance id, then lower-case the result. -/
def substValue (fqdn iid v : Str) : Str :=
  lowerStr (replaceL tokI iid (replaceL tokF fqdn v))

/-- `os.path.join` for two components (posix rules). -/
def pathJoin (a b : Str) : Str :=
  if b.head? = some '/' then b
  else if a = [] then b
  else if a.getLast? = some '/' then a ++ b
  else a ++ '/' :: b

/-- The path bundle computed by `PuppetConstants.__init__` (source lines
89-100). -/
structure PuppetConstants where
  conf_dir : Str
  conf_path : Str
  ssl_dir : Str
  ssl_cert_dir : Str
  ssl_cert_path : Str
deriving DecidableEq

/-- Build the `PuppetConstants` bundle from the two base directories
(source lines 91-100). -/
def mkPuppetConstants (conf_dir ssl_dir : Str) : PuppetConstants :=
  { conf_dir := conf_dir
    conf_path := pathJoin conf_dir ("puppet.conf").data
    ssl_dir := ssl_dir
    ssl_cert_dir := pathJoin ssl_dir ("certs").data
    ssl_cert_path := pathJoin (pathJoin ssl_dir ("certs").data) ("ca.pem").data }

/-- A value of the declarative `conf` mapping: either a raw string (the
PEM payload of `ca_cert`) or a nested section mapping. -/
inductive ConfVal where
  | str (s : Str)
  | dict (entries : List (Str × Str))
deriving DecidableEq

/-- The error raised when a section's entries are not key/value pairs
(`cfg.items()` on a non-mapping at source line 180). -/
inductive MergeError where
  | malformedConfigDescription
deriving DecidableEq

/-- One requested filesystem/process operation, in the order the source
issues it. -/
inductive Effect where
  | ensureDir (path : Str) (mode : Option Nat)
  | chownByName (path user group : Str)
  | writeFile (path content : Str)
  | renameFile (src dst : Str)
  | installPackages (pkg : Str) (version : Option Str)
  | readFile (path : Str)
  | autostartPuppet
  | startPuppetService
deriving DecidableEq

/-- The six side effects of the `ca_cert` branch, in source order (lines
168-176): ensure ssl dir with mode `0o771`, chown it, ensure the cert
subdirectory, chown it, write the PEM payload, chown the cert file. -/
def caCertEffects (pc : PuppetConstants) (payload : Str) : List Effect :=
  [ .ensureDir pc.ssl_dir (some 505),
    .chownByName pc.ssl_dir ("puppet").data ("root").data,
    .ensureDir pc.ssl_cert_dir none,
    .chownByName pc.ssl_cert_dir ("puppet").data ("root").data,
    .writeFile pc.ssl_cert_path payload,
    .chownByName pc.ssl_cert_path ("puppet").data ("root").data ]

/-- The raw payload handed to `util.write_file` by the `ca_cert` branch
(the declarative input shape gives `ca_cert` a raw string). -/
def payloadOf : ConfVal → Str
  | .str s => s
  | .dict _ => []

/-- Set all pairs of one section of the description into the store,
substituting placeholders only under the key `certname` (source lines
180-189). -/
def applyEntries (fqdn iid : Str) (st : ConfigStore) (sec : Str)
    (ps : List (Str × Str)) : ConfigStore :=
  ps.foldl
    (fun acc p =>
      setKV acc sec p.1 (if p.1 = certnameKey then substValue fqdn iid p.2 else p.2))
    st

/-- The two per-iteration file-commit effects of source lines 190-194:
rename the config file to `<path>.old`, then write the serialized store
to the config path.  In the source these statements are inside the
`for` loop over the description's entries. -/
def iterTail (pc : PuppetConstants) (st : ConfigStore) : List Effect :=
  [ .renameFile pc.conf_path (pc.conf_path ++ oldSuffix),
    .writeFile pc.conf_path (serialize st) ]

/-- The loop of source lines 165-194 over the `(cfg_name, cfg)` pairs of
`puppet_cfg['conf']`: the `ca_cert` branch emits its six effects and
leaves the store alone; any other name requires a mapping (else
`cfg.items()` raises, aborting with the effects already emitted) whose
pairs are set into the store; after each entry the config file is
renamed and rewritten.  Returns the effect trace together with the final
store or the propagated error. -/
def processConf (pc : PuppetConstants) (fqdn iid : Str) (st : ConfigStore) :
    List (Str × ConfVal) → List Effect × Except MergeError ConfigStore
  | [] => ([], .ok st)
  | (name, val) :: rest =>
    if name = caCertKey then
      let r := processConf pc fqdn iid st rest
      (caCertEffects pc (payloadOf val) ++ iterTail pc st ++ r.1, r.2)
    else
      match val with
      | .str _ => ([], .error .malformedConfigDescription)
      | .dict ps =>
        let st' := applyEntries fqdn iid st name ps
        let r := processConf pc fqdn iid st' rest
        (iterTail pc st' ++ r.1, r.2)

/-- The `puppet` configuration mapping with the defaults of source lines
128-138. -/
structure PuppetCfg where
  install : Bool := true
  version : Option Str := none
  package_name : Str := ("puppet").data
  conf_dir : Str := ("/etc/puppet").data
  ssl_dir : Str := ("/var/lib/puppet/ssl").data
  conf : Option (List (Str × ConfVal)) := none
deriving DecidableEq

/-- The `handle` entry point (source lines 119-200): return untouched
when the top-level `puppet` key is absent; otherwise install the package
when requested, merge the `conf` description when present (reading the
existing config file, whose text is the `existingText` argument), and
finally autostart and start the puppet service.  An error raised by the
merge propagates and aborts the remaining steps.  `fqdn` and `iid` are
the values the source obtains from `socket.getfqdn()` and
`cloud.get_instance_id()`. -/
def handle (cfg : List (Str × PuppetCfg)) (existingText fqdn iid : Str) :
    List Effect × Except MergeError Unit :=
  match cfg.find? (fun p => decide (p.1 = puppetKey)) with
  | none => ([], .ok ())
  | some (_, pcfg) =>
    let pc := mkPuppetConstants pcfg.conf_dir pcfg.ssl_dir
    let installEffs : List Effect :=
      if pcfg.install then [.installPackages pcfg.package_name pcfg.version] else []
    match pcfg.conf with
    | none => (installEffs ++ [.autostartPuppet, .startPuppetService], .ok ())
    | some conf =>
      let r := processConf pc fqdn iid (load existingText) conf
      match r.2 with
      | .error e => (installEffs ++ .readFile pc.conf_path :: r.1, .error e)
      | .ok _ =>
        (installEffs ++ .readFile pc.conf_path :: r.1 ++
          [.autostartPuppet, .startPuppetService], .ok ())

instance {ε α : Type} [DecidableEq ε] [DecidableEq α] : DecidableEq (Except ε α) :=
  fun a b =>
    match a, b with
    | .ok x, .ok y => if h : x = y then .isTrue (by simp [h]) else .isFalse (by simp [h])
    | .ok _, .error _ => .isFalse (by simp)
    | .error _, .ok _ => .isFalse (by simp)
    | .error x, .error y =>
      if h : x = y then .isTrue (by simp [h]) else .isFalse (by simp [h])

/-- Look a value up in the store: first section named `s`, first pair
keyed `k` inside it. -/
def getVal (st : ConfigStore) (s k : Str) : Option Str :=
  match st.sections.find? (fun sec => decide (sec.1 = s)) with
  | none => none
  | some sec => (sec.2.find? (fun p => decide (p.1 = k))).map (fun p => p.2)

/-- The store produced by a merge result, with a fallback for the error
case. -/
def resultStore (r : List Effect × Except MergeError ConfigStore)
    (dflt : ConfigStore) : ConfigStore :=
  match r.2 with
  | .ok s => s
  | .error _ => dflt

/-- Recognize a write effect targeting a given path. -/
def isWriteTo (p : Str) : Effect → Bool
  | .writeFile q _ => decide (q = p)
  | _ => false

/-- Recognize any file-write effect. -/
def isWrite : Effect → Bool
  | .writeFile _ _ => true
  | _ => false

/-- The default path bundle (conf dir `/etc/puppet`, ssl dir
`/var/lib/puppet/ssl`). -/
def pcDefault : PuppetConstants :=
  mkPuppetConstants ("/etc/puppet").data ("/var/lib/puppet/ssl").data

/-- A key whose first character (if any) is not whitespace, so that a
leading-whitespace strip leaves its rendered line intact. -/
def keyHeadOk (k : Str) : Prop := ∀ c, k.head? = some c → c.isWhitespace = false

/-- The shape every key/value pair produced by the parser has: no
newline in key or value, no `=` in the key, no leading whitespace on the
key, and a rendered line that is not a section header. -/
def pairWF (k v : Str) : Prop :=
  ('\n' ∉ k) ∧ ('\n' ∉ v) ∧ ('=' ∉ k) ∧ keyHeadOk k ∧
  ¬((k ++ '=' :: v).head? = some '[' ∧ (k ++ '=' :: v).getLast? = some ']')

/-- The shape every section produced by the parser has: newline-free
name, distinct keys, well-formed pairs. -/
def secWF (sec : Str × List (Str × Str)) : Prop :=
  ('\n' ∉ sec.1) ∧ sec.2.Pairwise (fun p q => p.1 ≠ q.1) ∧ ∀ p ∈ sec.2, pairWF p.1 p.2

/-- The invariant of every store produced by the parser: distinct
section names and well-formed sections. -/
def storeWF (st : ConfigStore) : Prop :=
  st.sections.Pairwise (fun a b => a.1 ≠ b.1) ∧ ∀ sec ∈ st.sections, secWF sec

theorem setInSection_find? (k v : Str) (es : List (Str × Str)) :
    (setInSection k v es).find? (fun p => decide (p.1 = k)) = some (k, v) := by
  induction es with
  | nil => simp [setInSection, List.find?]
  | cons p rest ih =>
    by_cases h : p.1 = k
    · simp [setInSection, h, List.find?]
    · simp only [setInSection, if_neg h]
      rw [List.find?_cons_of_neg _ (by simp [h])]
      exact ih

theorem setSections_find? (s k v : Str) (l : List (Str × List (Str × Str))) :
    ∃ es, (setSections s k v l).find? (fun sec => decide (sec.1 = s)) = some (s, es) ∧
      es.find? (fun p => decide (p.1 = k)) = some (k, v) := by
  induction l with
  | nil =>
    exact ⟨[(k, v)], by simp [setSections, List.find?], by simp [List.find?]⟩
  | cons sec rest ih =>
    by_cases h : sec.1 = s
    · refine ⟨setInSection k v sec.2, ?_, setInSection_find? k v sec.2⟩
      simp [setSections, h, List.find?]
    · obtain ⟨es, h1, h2⟩ := ih
      refine ⟨es, ?_, h2⟩
      simp only [setSections, if_neg h]
      rw [List.find?_cons_of_neg _ (by simp [h])]
      exact h1

theorem getVal_setKV (st : ConfigStore) (s k v : Str) :
    getVal (setKV st s k v) s k = some v := by
  obtain ⟨es, h1, h2⟩ := setSections_find? s k v st.sections
  simp [getVal, setKV, h1, h2]

/-- C10: when the configuration mapping has no top-level `puppet` key,
`handle` returns immediately: no effect of any kind is emitted and no
error is raised. -/
theorem no_puppet_key_no_action (cfg : List (Str × PuppetCfg)) (text fqdn iid : Str)
    (h : cfg.find? (fun p => decide (p.1 = puppetKey)) = none) :
    handle cfg text fqdn iid = ([], .ok ()) := by
  unfold handle
  rw [h]

theorem no_puppet_key_no_action_witness :
    ([(("users").data, ({} : PuppetCfg))].find?
        (fun p => decide (p.1 = puppetKey)) = none) ∧
      handle [(("users").data, ({} : PuppetCfg))] [] [] [] = ([], .ok ()) :=
  ⟨by decide, no_puppet_key_no_action _ _ _ _ (by decide)⟩

/-- C1 counterexample: for the description whose only entry is `ca_cert`
with a PEM payload, the code's trace has two file writes, not one (the
text configuration file is renamed and rewritten as well), and the
ownership change on the ssl directory (index 1) precedes the PEM write
(index 4) instead of following it as the claim orders the effects. -/
theorem ca_cert_routing_counterexample :
    ((processConf pcDefault [] [] ⟨[]⟩ [(caCertKey, .str ("PEM").data)]).1.countP
        isWrite = 2) ∧
      ((processConf pcDefault [] [] ⟨[]⟩ [(caCertKey, .str ("PEM").data)]).1[1]? =
        some (.chownByName pcDefault.ssl_dir ("puppet").data ("root").data)) ∧
      ((processConf pcDefault [] [] ⟨[]⟩ [(caCertKey, .str ("PEM").data)]).1[4]? =
        some (.writeFile pcDefault.ssl_cert_path ("PEM").data)) ∧
      ((processConf pcDefault [] [] ⟨[]⟩ [(caCertKey, .str ("PEM").data)]).1.countP
        (isWriteTo pcDefault.conf_path) = 1) := by
  decide

/-- C1 amended: a `ca_cert`-only description leaves the store unmutated
(the result is the input store) and produces exactly the effect trace of
source lines 168-176 and 190-194 in source order: ensure ssl dir with
mode `0o771`, chown it, ensure the cert subdirectory, chown it, write
the PEM payload to the certificate file path (the only write of the PEM),
chown the cert file, then rename the config file to its `.old` sibling
and rewrite it with the serialization of the unchanged store. -/
theorem ca_cert_merge_effects (pc : PuppetConstants) (fqdn iid pem : Str)
    (st : ConfigStore) :
    processConf pc fqdn iid st [(caCertKey, .str pem)] =
      (caCertEffects pc pem ++ iterTail pc st, .ok st) := by
  simp [processConf, payloadOf]

/-- C3: the code serializes and rewrites the text configuration file
once per top-level entry of the description, not once at the end: a
two-entry description produces two writes of the config path. -/
theorem conf_rewritten_per_entry :
    ((processConf pcDefault [] [] ⟨[]⟩
        [(("main").data, .dict [(("server").data, ("a").data)]),
         (("agent").data, .dict [(("x").data, ("y").data)])]).1.countP
      (isWriteTo pcDefault.conf_path)) = 2 := by
  decide

/-- C4 counterexample: certname substitution attempted with no identity
values available (both the fqdn and the instance id empty) succeeds: the
merge returns a store (no error of any kind is raised), with the
placeholders replaced by the empty values. -/
theorem certname_no_missing_context :
    (processConf pcDefault [] [] ⟨[]⟩
        [(("puppetd").data, .dict [(certnameKey, ("%i.%f").data)])]).2 =
      .ok ⟨[(("puppetd").data, [(certnameKey, (".").data)])]⟩ := by
  decide

/-- C4 amended: certname substitution never fails: for every pair of
identity values (the module itself obtains them via `socket.getfqdn()`
and `cloud.get_instance_id()` rather than requiring the caller to supply
them), merging a key/value section succeeds; no `MissingContext` error
exists in the code. -/
theorem certname_never_fails (pc : PuppetConstants) (fqdn iid : Str)
    (st : ConfigStore) (sec : Str) (ps : List (Str × Str))
    (h : sec ≠ caCertKey) :
    processConf pc fqdn iid st [(sec, .dict ps)] =
      (iterTail pc (applyEntries fqdn iid st sec ps),
        .ok (applyEntries fqdn iid st sec ps)) := by
  simp [processConf, h]

theorem certname_never_fails_witness :
    (("puppetd").data ≠ caCertKey) ∧
      processConf pcDefault [] [] ⟨[]⟩
          [(("puppetd").data, .dict [(certnameKey, ("%i.%f").data)])] =
        (iterTail pcDefault
            (applyEntries [] [] ⟨[]⟩ (("puppetd").data)
              [(certnameKey, ("%i.%f").data)]),
          .ok (applyEntries [] [] ⟨[]⟩ (("puppetd").data)
              [(certnameKey, ("%i.%f").data)])) :=
  ⟨by decide, certname_never_fails pcDefault [] [] ⟨[]⟩ _ _ (by decide)⟩

/-- C8 counterexample: a description whose first entry is a well-formed
section and whose second entry maps to a raw string propagates
`MalformedConfigDescription`, but only after the first entry has already
mutated the store and rewritten the text configuration file once. -/
theorem malformed_after_mutation :
    ((processConf pcDefault [] [] ⟨[]⟩
        [(("main").data, .dict [(("k").data, ("v").data)]),
         (("bad").data, .str ("oops").data)]).2 =
      .error .malformedConfigDescription) ∧
      ((processConf pcDefault [] [] ⟨[]⟩
        [(("main").data, .dict [(("k").data, ("v").data)]),
         (("bad").data, .str ("oops").data)]).1.countP
          (isWriteTo pcDefault.conf_path) = 1) := by
  decide

/-- C8 amended: when the merge reaches a (non-`ca_cert`) entry whose
value is not a key/value mapping, it raises
`MalformedConfigDescription`, which propagates to the caller; that entry
and every later entry contribute no effect and no store mutation, but
effects and mutations of earlier entries persist. -/
theorem malformed_aborts_entry (pc : PuppetConstants) (fqdn iid payload : Str)
    (st : ConfigStore) (sec : Str) (rest : List (Str × ConfVal))
    (h : sec ≠ caCertKey) :
    processConf pc fqdn iid st ((sec, .str payload) :: rest) =
      ([], .error .malformedConfigDescription) := by
  simp [processConf, h]

theorem malformed_aborts_entry_witness :
    (("bad").data ≠ caCertKey) ∧
      processConf pcDefault [] [] ⟨[]⟩
          [(("bad").data, .str ("oops").data),
           (("main").data, .dict [(("k").data, ("v").data)])] =
        ([], .error .malformedConfigDescription) :=
  ⟨by decide, malformed_aborts_entry pcDefault [] [] _ ⟨[]⟩ _ _ (by decide)⟩

/-- C2: merging a single-pair section stores, under the key `certname`
and under no other key, the value with every `%f` replaced by the fqdn
and every `%i` by the instance id and the result lower-cased; in
particular `%i.%f` with fqdn `host.example.com` and instance id `i-1234`
becomes `i-1234.host.example.com`. -/
theorem certname_substitution (pc : PuppetConstants) (fqdn iid : Str)
    (st : ConfigStore) (sec k v : Str) (h : sec ≠ caCertKey) :
    (getVal (resultStore (processConf pc fqdn iid st [(sec, .dict [(k, v)])]) st)
        sec k = some (if k = certnameKey then substValue fqdn iid v else v)) ∧
      substValue (("host.example.com").data) (("i-1234").data) (("%i.%f").data) =
        ("i-1234.host.example.com").data := by
  constructor
  · simp only [processConf, if_neg h, applyEntries, List.foldl_cons, List.foldl_nil,
      resultStore]
    exact getVal_setKV st sec k _
  · decide

theorem certname_substitution_witness :
    getVal (resultStore (processConf pcDefault (("host.example.com").data)
          (("i-1234").data) ⟨[]⟩
          [(("puppetd").data, .dict [(certnameKey, ("%i.%f").data)])]) ⟨[]⟩)
        (("puppetd").data) certnameKey =
      some (("i-1234.host.example.com").data) := by
  have h := certname_substitution pcDefault (("host.example.com").data)
    (("i-1234").data) ⟨[]⟩ (("puppetd").data) certnameKey (("%i.%f").data)
    (by decide)
  rw [h.1]
  decide

/-- C9: the two replacements are sequential passes, `%f` first: for the
value `%f` the whole result is the `%i`-substitution (then
lower-casing) of the fqdn itself, so a `%i` token inside the fqdn's text
is subsequently replaced by the instance id — concretely, fqdn `A%iB`
with instance id `id-7` yields `aid-7b`. -/
theorem sequential_substitution (fqdn iid : Str) :
    (substValue fqdn iid tokF = lowerStr (replaceL tokI iid fqdn)) ∧
      substValue (("A%iB").data) (("id-7").data) tokF = ("aid-7b").data := by
  constructor
  · have hf : replaceL tokF fqdn tokF = fqdn ++ [] := rfl
    simp only [substValue, hf, List.append_nil]
  · decide

theorem setInSection_append (k v : Str) (es : List (Str × Str))
    (h : k ∉ es.map Prod.fst) : setInSection k v es = es ++ [(k, v)] := by
  induction es with
  | nil => rfl
  | cons p rest ih =>
    have hp : p.1 ≠ k := by
      intro he
      exact h (by simp [he.symm])
    simp only [setInSection, if_neg hp, List.cons_append, List.cons.injEq, true_and]
    exact ih (fun hm => h (by simp at hm ⊢; exact Or.inr hm))

theorem setInSection_overwrite (k v w : Str) (p1 p2 : List (Str × Str))
    (h : k ∉ p1.map Prod.fst) :
    setInSection k v (p1 ++ (k, w) :: p2) = p1 ++ (k, v) :: p2 := by
  induction p1 with
  | nil => simp [setInSection]
  | cons q rest ih =>
    have hq : q.1 ≠ k := by
      intro he
      exact h (by simp [he.symm])
    simp only [List.cons_append, setInSection, if_neg hq, List.cons.injEq, true_and]
    exact ih (fun hm => h (by simp at hm ⊢; exact Or.inr hm))

theorem setSections_append (s k v : Str) (l : List (Str × List (Str × Str)))
    (h : s ∉ l.map Prod.fst) : setSections s k v l = l ++ [(s, [(k, v)])] := by
  induction l with
  | nil => rfl
  | cons sec rest ih =>
    have hs : sec.1 ≠ s := by
      intro he
      exact h (by simp [he.symm])
    simp only [setSections, if_neg hs, List.cons_append, List.cons.injEq, true_and]
    exact ih (fun hm => h (by simp at hm ⊢; exact Or.inr hm))

theorem setSections_update (s k v : Str) (pre post : List (Str × List (Str × Str)))
    (es : List (Str × Str)) (h : s ∉ pre.map Prod.fst) :
    setSections s k v (pre ++ (s, es) :: post) =
      pre ++ (s, setInSection k v es) :: post := by
  induction pre with
  | nil => simp [setSections]
  | cons q rest ih =>
    have hq : q.1 ≠ s := by
      intro he
      exact h (by simp [he.symm])
    simp only [List.cons_append, setSections, if_neg hq, List.cons.injEq, true_and]
    exact ih (fun hm => h (by simp at hm ⊢; exact Or.inr hm))

/-- C6: `set(section, key, value)` appends a fresh section at the end
when the section is absent (existing sections untouched, order
preserved); inside an existing section it appends a fresh key at the
end, and it overwrites the value of an existing key in place — same
position, no duplicate, everything else unchanged. -/
theorem set_semantics (st : ConfigStore) (s k v : Str) :
    (s ∉ st.sections.map Prod.fst →
        (setKV st s k v).sections = st.sections ++ [(s, [(k, v)])]) ∧
      (∀ pre es post, st.sections = pre ++ (s, es) :: post →
        s ∉ pre.map Prod.fst →
        (k ∉ es.map Prod.fst →
            (setKV st s k v).sections = pre ++ (s, es ++ [(k, v)]) :: post) ∧
          (∀ p1 w p2, es = p1 ++ (k, w) :: p2 → k ∉ p1.map Prod.fst →
            (setKV st s k v).sections = pre ++ (s, p1 ++ (k, v) :: p2) :: post)) := by
  refine ⟨fun h => setSections_append s k v st.sections h, ?_⟩
  intro pre es post hsec hpre
  constructor
  · intro hk
    show setSections s k v st.sections = _
    rw [hsec, setSections_update s k v pre post es hpre,
      setInSection_append k v es hk]
  · intro p1 w p2 hes hp1
    show setSections s k v st.sections = _
    rw [hsec, setSections_update s k v pre post es hpre, hes,
      setInSection_overwrite k v w p1 p2 hp1]

/-- A concrete store used to witness the `set` semantics. -/
def c6Store : ConfigStore :=
  ⟨[(("agent").data, [(("x").data, ("1").data), (("y").data, ("2").data)])]⟩

theorem set_semantics_witness :
    ((setKV c6Store (("main").data) (("k").data) (("v").data)).sections =
        c6Store.sections ++ [((("main").data), [((("k").data), (("v").data))])]) ∧
      ((setKV c6Store (("agent").data) (("z").data) (("3").data)).sections =
        [] ++ ((("agent").data),
          [(("x").data, ("1").data), (("y").data, ("2").data)] ++
            [((("z").data), (("3").data))]) :: []) ∧
      ((setKV c6Store (("agent").data) (("x").data) (("9").data)).sections =
        [] ++ ((("agent").data),
          [] ++ ((("x").data), (("9").data)) :: [(("y").data, ("2").data)]) :: []) := by
  refine ⟨?_, ?_, ?_⟩
  · exact (set_semantics c6Store (("main").data) (("k").data) (("v").data)).1
      (by decide)
  · exact ((set_semantics c6Store (("agent").data) (("z").data) (("3").data)).2
      [] [(("x").data, ("1").data), (("y").data, ("2").data)] []
      (by decide) (by decide)).1 (by decide)
  · exact ((set_semantics c6Store (("agent").data) (("x").data) (("9").data)).2
      [] [(("x").data, ("1").data), (("y").data, ("2").data)] []
      (by decide) (by decide)).2
      [] (("1").data) [(("y").data, ("2").data)] (by decide) (by decide)

theorem pathJoin_getLast? (a b : Str) (hb : b ≠ []) :
    (pathJoin a b).getLast? = b.getLast? := by
  unfold pathJoin
  split
  · rfl
  · split
    · rfl
    · split
      · exact List.getLast?_append_of_ne_nil a hb
      · cases b with
        | nil => exact absurd rfl hb
        | cons x xs =>
          rw [List.getLast?_append_cons, List.getLast?_cons_cons]

theorem cert_path_ne_conf_path (cd sd : Str) :
    (mkPuppetConstants cd sd).ssl_cert_path ≠ (mkPuppetConstants cd sd).conf_path := by
  intro h
  have h1 : (mkPuppetConstants cd sd).conf_path.getLast? = some 'f' := by
    show (pathJoin cd (("puppet.conf").data)).getLast? = _
    rw [pathJoin_getLast? _ _ (by decide)]
    decide
  have h2 : (mkPuppetConstants cd sd).ssl_cert_path.getLast? = some 'm' := by
    show (pathJoin (pathJoin sd (("certs").data)) (("ca.pem").data)).getLast? = _
    rw [pathJoin_getLast? _ _ (by decide)]
    decide
  rw [h, h1] at h2
  exact absurd h2 (by decide)

theorem conf_write_not_in_caCertEffects (pc : PuppetConstants)
    (hne : pc.ssl_cert_path ≠ pc.conf_path) (payload c : Str) :
    Effect.writeFile pc.conf_path c ∉ caCertEffects pc payload := by
  intro hmem
  simp only [caCertEffects, List.mem_cons, List.not_mem_nil, or_false] at hmem
  rcases hmem with h | h | h | h | h | h
  all_goals first
    | exact Effect.noConfusion h
    | exact hne (Effect.writeFile.inj h).1.symm

theorem locate_append {α : Type} (xs ys pre suf : List α) (e : α)
    (h : xs ++ ys = pre ++ e :: suf) :
    (∃ t, xs = pre ++ e :: t) ∨ (∃ q, pre = xs ++ q ∧ ys = q ++ e :: suf) := by
  rcases List.append_eq_append_iff.1 h with ⟨a, ha1, ha2⟩ | ⟨c, hc1, hc2⟩
  · exact Or.inr ⟨a, ha1, ha2⟩
  · cases c with
    | nil =>
      have hx : xs = pre := by simpa using hc1
      refine Or.inr ⟨[], by simp [hx], by simpa using hc2.symm⟩
    | cons d c1 =>
      have hd : d = e ∧ c1 ++ ys = suf := by
        have := hc2.symm
        rw [List.cons_append] at this
        exact ⟨(List.cons.inj this).1, (List.cons.inj this).2⟩
      exact Or.inl ⟨c1, by rw [hc1, hd.1]⟩

theorem iter_chunk_last (pc : PuppetConstants) (stX : ConfigStore)
    (t q suf : List Effect) (c : Str)
    (hrec : ∀ q2 suf2 c2, t = q2 ++ Effect.writeFile pc.conf_path c2 :: suf2 →
      q2.getLast? = some (Effect.renameFile pc.conf_path (pc.conf_path ++ oldSuffix)))
    (h : iterTail pc stX ++ t = q ++ Effect.writeFile pc.conf_path c :: suf) :
    q.getLast? = some (Effect.renameFile pc.conf_path (pc.conf_path ++ oldSuffix)) := by
  simp only [iterTail, List.cons_append, List.nil_append] at h
  cases q with
  | nil =>
    rw [List.nil_append] at h
    exact absurd (List.cons.inj h).1 (by simp)
  | cons a q1 =>
    rw [List.cons_append] at h
    have ha : Effect.renameFile pc.conf_path (pc.conf_path ++ oldSuffix) = a :=
      (List.cons.inj h).1
    have h2 : Effect.writeFile pc.conf_path (serialize stX) :: t =
        q1 ++ Effect.writeFile pc.conf_path c :: suf := (List.cons.inj h).2
    cases q1 with
    | nil => rw [← ha]; rfl
    | cons b q2 =>
      rw [List.cons_append] at h2
      have ht : t = q2 ++ Effect.writeFile pc.conf_path c :: suf := (List.cons.inj h2).2
      have hlast := hrec q2 suf c ht
      rw [List.getLast?_cons_cons]
      cases q2 with
      | nil => exact absurd hlast (by simp)
      | cons z zs =>
        rw [List.getLast?_cons_cons]
        exact hlast

/-- C5: in every merge trace, an effect writing content to the real
config file path is immediately preceded by the effect renaming the
prior file at that path to the sibling path with the fixed `.old` suffix
appended to the filename; in particular no write to the config path ever
precedes its rename. -/
theorem rename_precedes_conf_write (cd sd fqdn iid : Str) (st : ConfigStore)
    (conf : List (Str × ConfVal)) (pre suf : List Effect) (c : Str)
    (h : (processConf (mkPuppetConstants cd sd) fqdn iid st conf).1 =
      pre ++ Effect.writeFile (mkPuppetConstants cd sd).conf_path c :: suf) :
    pre.getLast? = some (Effect.renameFile (mkPuppetConstants cd sd).conf_path
      ((mkPuppetConstants cd sd).conf_path ++ oldSuffix)) := by
  induction conf generalizing st pre suf c with
  | nil =>
    rcases pre with _ | ⟨p, pre⟩ <;> simp [processConf] at h
  | cons entry rest ih =>
    obtain ⟨name, val⟩ := entry
    by_cases hca : name = caCertKey
    · simp only [processConf, if_pos hca] at h
      rw [List.append_assoc] at h
      rcases locate_append _ _ _ _ _ h with ⟨t1, ht1⟩ | ⟨q, hq1, hq2⟩
      · have hmem : Effect.writeFile (mkPuppetConstants cd sd).conf_path c ∈
            caCertEffects (mkPuppetConstants cd sd) (payloadOf val) := by
          rw [ht1]; simp
        exact absurd hmem (conf_write_not_in_caCertEffects _
          (cert_path_ne_conf_path cd sd) _ _)
      · have hlast := iter_chunk_last (mkPuppetConstants cd sd) st _ q suf c
          (fun q2 suf2 c2 hdec => ih st q2 suf2 c2 hdec) hq2
        have hqne : q ≠ [] := by
          intro hnil
          rw [hnil] at hlast
          exact absurd hlast (by simp)
        rw [hq1, List.getLast?_append_of_ne_nil _ hqne]
        exact hlast
    · simp only [processConf, if_neg hca] at h
      cases val with
      | str s =>
        rcases pre with _ | ⟨p, pre⟩ <;> simp at h
      | dict ps =>
        simp only at h
        exact iter_chunk_last (mkPuppetConstants cd sd)
          (applyEntries fqdn iid st name ps) _ pre suf c
          (fun q2 suf2 c2 hdec =>
            ih (applyEntries fqdn iid st name ps) q2 suf2 c2 hdec) h

theorem rename_precedes_conf_write_witness :
    ((processConf (mkPuppetConstants (("/etc/puppet").data)
          (("/var/lib/puppet/ssl").data)) [] [] ⟨[]⟩
        [(("main").data, .dict [(("k").data, ("v").data)])]).1 =
      [Effect.renameFile (mkPuppetConstants (("/etc/puppet").data)
          (("/var/lib/puppet/ssl").data)).conf_path
          ((mkPuppetConstants (("/etc/puppet").data)
            (("/var/lib/puppet/ssl").data)).conf_path ++ oldSuffix)] ++
        Effect.writeFile (mkPuppetConstants (("/etc/puppet").data)
          (("/var/lib/puppet/ssl").data)).conf_path
          (("[main]\nk=v").data) :: []) ∧
      ([Effect.renameFile (mkPuppetConstants (("/etc/puppet").data)
          (("/var/lib/puppet/ssl").data)).conf_path
          ((mkPuppetConstants (("/etc/puppet").data)
            (("/var/lib/puppet/ssl").data)).conf_path ++ oldSuffix)] :
        List Effect).getLast? =
        some (Effect.renameFile (mkPuppetConstants (("/etc/puppet").data)
          (("/var/lib/puppet/ssl").data)).conf_path
          ((mkPuppetConstants (("/etc/puppet").data)
            (("/var/lib/puppet/ssl").data)).conf_path ++ oldSuffix)) := by
  constructor
  · decide
  · exact rename_precedes_conf_write (("/etc/puppet").data)
      (("/var/lib/puppet/ssl").data) [] [] ⟨[]⟩
      [(("main").data, .dict [(("k").data, ("v").data)])] _ [] (("[main]\nk=v").data)
      (by decide)

theorem splitLines_ne_nil (s : Str) : splitLines s ≠ [] := by
  cases s with
  | nil => simp [splitLines]
  | cons c cs =>
    simp only [splitLines]
    split
    · simp
    · split <;> simp

theorem no_newline_of_mem_splitLines (s : Str) :
    ∀ l ∈ splitLines s, '\n' ∉ l := by
  induction s with
  | nil =>
    intro l hl
    simp [splitLines] at hl
    simp [hl]
  | cons c cs ih =>
    intro l hl
    simp only [splitLines] at hl
    by_cases hc : c = '\n'
    · rw [if_pos hc] at hl
      rcases List.mem_cons.1 hl with h | h
      · simp [h]
      · exact ih l h
    · rw [if_neg hc] at hl
      cases hsp : splitLines cs with
      | nil => exact absurd hsp (splitLines_ne_nil cs)
      | cons m ms =>
        rw [hsp] at hl
        rcases List.mem_cons.1 hl with h | h
        · subst h
          intro hmem
          rcases List.mem_cons.1 hmem with h1 | h1
          · exact hc h1.symm
          · exact ih m (by rw [hsp]; exact List.mem_cons_self m ms) h1
        · exact ih l (by rw [hsp]; exact List.mem_cons_of_mem m h)

theorem splitLines_of_no_newline (l : Str) (h : '\n' ∉ l) : splitLines l = [l] := by
  induction l with
  | nil => rfl
  | cons c cs ih =>
    have hc : ¬c = '\n' := fun he => h (by simp [he])
    simp only [splitLines, if_neg hc]
    rw [ih (fun hm => h (List.mem_cons_of_mem c hm))]

theorem splitLines_append_newline (l s : Str) (h : '\n' ∉ l) :
    splitLines (l ++ '\n' :: s) = l :: splitLines s := by
  induction l with
  | nil => simp [splitLines]
  | cons c cs ih =>
    have hc : ¬c = '\n' := fun he => h (by simp [he])
    simp only [List.cons_append, splitLines, if_neg hc, List.append_eq]
    rw [ih (fun hm => h (List.mem_cons_of_mem c hm))]

theorem splitLines_joinLines (ls : List Str) (hne : ls ≠ [])
    (h : ∀ l ∈ ls, '\n' ∉ l) : splitLines (joinLines ls) = ls := by
  induction ls with
  | nil => exact absurd rfl hne
  | cons l rest ih =>
    cases rest with
    | nil => exact splitLines_of_no_newline l (h l (List.mem_cons_self l []))
    | cons m ms =>
      rw [show joinLines (l :: m :: ms) = l ++ '\n' :: joinLines (m :: ms) from rfl]
      rw [splitLines_append_newline _ _ (h l (List.mem_cons_self l _))]
      rw [ih (by simp) (fun x hx => h x (List.mem_cons_of_mem l hx))]

theorem lstrip_eq_self_of_head (l : Str)
    (h : ∀ c, l.head? = some c → c.isWhitespace = false) : lstrip l = l := by
  cases l with
  | nil => rfl
  | cons c cs => simp [lstrip, List.dropWhile_cons, h c rfl]

theorem mem_of_mem_lstrip {c : Char} {l : Str} (h : c ∈ lstrip l) : c ∈ l :=
  List.Sublist.mem h (List.dropWhile_sublist _)

theorem lstrip_idem (l : Str) : lstrip (lstrip l) = lstrip l := by
  induction l with
  | nil => rfl
  | cons c cs ih =>
    by_cases hc : c.isWhitespace
    · simp only [lstrip, List.dropWhile_cons, hc, if_true]
      exact ih
    · simp [lstrip, List.dropWhile_cons, hc]

theorem head_not_ws_of_lstrip_fix (l : Str) (hfix : lstrip l = l) (c : Char)
    (hc : l.head? = some c) : c.isWhitespace = false := by
  cases l with
  | nil => cases hc
  | cons a as =>
    have hac : a = c := by
      simp only [List.head?_cons, Option.some.injEq] at hc
      exact hc
    subst hac
    by_contra hws
    rw [Bool.not_eq_false] at hws
    have h2 : List.dropWhile (fun x => x.isWhitespace) as = a :: as := by
      have := hfix
      simp only [lstrip, List.dropWhile_cons, hws, if_true] at this
      exact this
    have hlen := List.Sublist.length_le
      (List.dropWhile_sublist (l := as) (fun x => x.isWhitespace))
    rw [h2] at hlen
    simp at hlen

theorem takeWhile_ne_eq (k v : Str) (hk : '=' ∉ k) :
    (k ++ '=' :: v).takeWhile (fun c => c != '=') = k := by
  induction k with
  | nil => simp [List.takeWhile_cons]
  | cons a as ih =>
    have ha : (a != '=') = true := by
      rw [bne_iff_ne]
      intro he
      exact hk (by simp [he])
    simp only [List.cons_append, List.takeWhile_cons, ha, if_true]
    rw [ih (fun hm => hk (List.mem_cons_of_mem a hm))]

theorem dropWhile_ne_eq (k v : Str) (hk : '=' ∉ k) :
    (k ++ '=' :: v).dropWhile (fun c => c != '=') = '=' :: v := by
  induction k with
  | nil => simp [List.dropWhile_cons]
  | cons a as ih =>
    have ha : (a != '=') = true := by
      rw [bne_iff_ne]
      intro he
      exact hk (by simp [he])
    simp only [List.cons_append, List.dropWhile_cons, ha, if_true]
    exact ih (fun hm => hk (List.mem_cons_of_mem a hm))

theorem dropWhile_eq_head (l : Str) (hl : '=' ∈ l) :
    ∃ ds, l.dropWhile (fun c => c != '=') = '=' :: ds := by
  induction l with
  | nil => cases hl
  | cons a as ih =>
    by_cases ha : a = '='
    · refine ⟨as, ?_⟩
      simp [List.dropWhile_cons, ha]
    · have hb : (a != '=') = true := by rw [bne_iff_ne]; exact ha
      have hm : '=' ∈ as := by
        rcases List.mem_cons.1 hl with h | h
        · exact absurd h.symm ha
        · exact h
      obtain ⟨ds, hds⟩ := ih hm
      exact ⟨ds, by simp [List.dropWhile_cons, hb, hds]⟩

theorem reconstruct_kv (l : Str) (hl : '=' ∈ l) :
    l.takeWhile (fun c => c != '=') ++
      '=' :: (l.dropWhile (fun c => c != '=')).drop 1 = l := by
  obtain ⟨ds, hds⟩ := dropWhile_eq_head l hl
  have hsplit := List.takeWhile_append_dropWhile (fun c => c != '=') l
  rw [hds] at hsplit
  rw [hds]
  simpa using hsplit

theorem line_contains_eq (k v : Str) : (k ++ '=' :: v).contains '=' = true := by
  rw [List.contains_iff_exists_mem_beq]
  exact ⟨'=', by simp, by simp⟩

theorem mem_of_contains_eq (l : Str) (h : l.contains '=' = true) : '=' ∈ l := by
  rw [List.contains_iff_exists_mem_beq] at h
  obtain ⟨a, ha, hb⟩ := h
  rw [beq_iff_eq] at hb
  rw [hb]
  exact ha

theorem loadGo_header_step (st : ConfigStore) (cur : Option Str) (n : Str)
    (ls : List Str) :
    loadGo st cur (('[' :: (n ++ [']'])) :: ls) =
      loadGo (ensureSection st n) (some n) ls := by
  have hl : ('[' :: (n ++ [']'])).getLast? = some ']' := by
    rw [show ('[' :: (n ++ [']'])) = ('[' :: n) ++ [']'] by simp]
    exact List.getLast?_concat _
  have hname : (('[' :: (n ++ [']'])).drop 1).dropLast = n := by
    simp
  have hh : ('[' :: (n ++ [']'])).head? = some '[' := rfl
  simp only [loadGo, hname]
  rw [if_pos (And.intro hh hl)]

theorem loadGo_kv_step (st : ConfigStore) (n : Str) (k v : Str) (ls : List Str)
    (hkv : pairWF k v) :
    loadGo st (some n) (renderPair (k, v) :: ls) =
      loadGo (setKV st n k v) (some n) ls := by
  obtain ⟨hnk, hnv, hek, hhead, hnothdr⟩ := hkv
  show loadGo st (some n) ((k ++ '=' :: v) :: ls) = _
  simp only [loadGo, if_neg hnothdr, line_contains_eq, if_true]
  rw [takeWhile_ne_eq k v hek, dropWhile_ne_eq k v hek]
  rfl

theorem ensureSection_of_not_mem (st : ConfigStore) (s : Str)
    (h : s ∉ st.sections.map Prod.fst) :
    ensureSection st s = ⟨st.sections ++ [(s, [])]⟩ := by
  unfold ensureSection
  rw [if_neg]
  intro hany
  rw [List.any_eq_true] at hany
  obtain ⟨x, hx, hpx⟩ := hany
  rw [decide_eq_true_eq] at hpx
  exact h (List.mem_map.2 ⟨x, hx, hpx⟩)

theorem setKV_snoc (done : List (Str × List (Str × Str))) (n : Str)
    (acc : List (Str × Str)) (k v : Str)
    (hn : n ∉ done.map Prod.fst) (hk : k ∉ acc.map Prod.fst) :
    setKV ⟨done ++ [(n, acc)]⟩ n k v = ⟨done ++ [(n, acc ++ [(k, v)])]⟩ := by
  show ConfigStore.mk (setSections n k v (done ++ [(n, acc)])) = _
  rw [setSections_update n k v done [] acc hn, setInSection_append k v acc hk]

theorem replay_pairs (es : List (Str × Str)) (acc : List (Str × Str))
    (done : List (Str × List (Str × Str))) (n : Str) (ls : List Str)
    (hn : n ∉ done.map Prod.fst)
    (hfresh : ∀ p ∈ es, p.1 ∉ acc.map Prod.fst)
    (hpw : es.Pairwise (fun p q => p.1 ≠ q.1))
    (hwf : ∀ p ∈ es, pairWF p.1 p.2) :
    loadGo ⟨done ++ [(n, acc)]⟩ (some n) (es.map renderPair ++ ls) =
      loadGo ⟨done ++ [(n, acc ++ es)]⟩ (some n) ls := by
  induction es generalizing acc with
  | nil => simp
  | cons p ps ih =>
    obtain ⟨k, v⟩ := p
    rw [List.map_cons, List.cons_append,
      loadGo_kv_step _ _ _ _ _ (hwf (k, v) (List.mem_cons_self _ _)),
      setKV_snoc done n acc k v hn (hfresh (k, v) (List.mem_cons_self _ _))]
    have hpw' := List.pairwise_cons.1 hpw
    have hstep := ih (acc ++ [(k, v)])
      (fun q hq => by
        rw [List.map_append]
        intro hmem
        rcases List.mem_append.1 hmem with hm | hm
        · exact hfresh q (List.mem_cons_of_mem _ hq) hm
        · simp only [List.map_cons, List.map_nil, List.mem_singleton] at hm
          exact hpw'.1 q hq hm.symm)
      hpw'.2
      (fun q hq => hwf q (List.mem_cons_of_mem _ hq))
    rw [hstep, List.append_assoc]
    rfl

theorem replay_secs (secs : List (Str × List (Str × Str)))
    (done : List (Str × List (Str × Str))) (cur : Option Str)
    (hpw : (done ++ secs).Pairwise (fun a b => a.1 ≠ b.1))
    (hwf : ∀ sec ∈ secs, secWF sec) :
    loadGo ⟨done⟩ cur (renderSecs secs) = ⟨done ++ secs⟩ := by
  induction secs generalizing done cur with
  | nil => simp [renderSecs, loadGo]
  | cons sec rest ih =>
    obtain ⟨n, es⟩ := sec
    rw [show renderSecs ((n, es) :: rest) =
        ('[' :: (n ++ [']'])) :: (es.map renderPair ++ renderSecs rest) by
      simp [renderSecs, renderSection]]
    rw [loadGo_header_step]
    have hn : n ∉ done.map Prod.fst := by
      intro hmem
      obtain ⟨x, hx, hxn⟩ := List.mem_map.1 hmem
      exact (List.pairwise_append.1 hpw).2.2 x hx (n, es)
        (List.mem_cons_self _ _) hxn
    rw [ensureSection_of_not_mem ⟨done⟩ n hn]
    have hsec := hwf (n, es) (List.mem_cons_self _ _)
    rw [replay_pairs es [] done n (renderSecs rest) hn (by simp) hsec.2.1
      (fun p hp => hsec.2.2 p hp)]
    have hpw2 : ((done ++ [(n, es)]) ++ rest).Pairwise (fun a b => a.1 ≠ b.1) := by
      rw [List.append_assoc]
      exact hpw
    rw [show (([] : List (Str × Str)) ++ es) = es from rfl]
    rw [ih (done ++ [(n, es)]) (some n) hpw2
      (fun q hq => hwf q (List.mem_cons_of_mem _ hq))]
    rw [List.append_assoc]
    rfl

theorem setInSection_wf (k v : Str) (es : List (Str × Str))
    (hes : es.Pairwise (fun p q => p.1 ≠ q.1))
    (hwf : ∀ p ∈ es, pairWF p.1 p.2) (hkv : pairWF k v) :
    (setInSection k v es).Pairwise (fun p q => p.1 ≠ q.1) ∧
      (∀ p ∈ setInSection k v es, pairWF p.1 p.2) ∧
      (∀ x ∈ (setInSection k v es).map Prod.fst, x ∈ k :: es.map Prod.fst) := by
  induction es with
  | nil =>
    refine ⟨by simp [setInSection], ?_, by simp [setInSection]⟩
    intro p hp
    have hp' := List.mem_singleton.1 hp
    rw [hp']
    exact hkv
  | cons q rest ih =>
    have hq := List.pairwise_cons.1 hes
    by_cases hqk : q.1 = k
    · simp only [setInSection, if_pos hqk]
      refine ⟨?_, ?_, ?_⟩
      · rw [List.pairwise_cons]
        refine ⟨fun p hp => ?_, hq.2⟩
        rw [← hqk]
        exact hq.1 p hp
      · intro p hp
        rcases List.mem_cons.1 hp with h | h
        · rw [h]; exact hkv
        · exact hwf p (List.mem_cons_of_mem q h)
      · intro x hx
        simp only [List.map_cons, List.mem_cons] at hx ⊢
        rcases hx with h | h
        · exact Or.inl h
        · exact Or.inr (Or.inr h)
    · simp only [setInSection, if_neg hqk]
      obtain ⟨ihpw, ihwf, ihsub⟩ :=
        ih hq.2 (fun p hp => hwf p (List.mem_cons_of_mem q hp))
      refine ⟨?_, ?_, ?_⟩
      · rw [List.pairwise_cons]
        refine ⟨fun p hp => ?_, ihpw⟩
        have hmem := ihsub p.1 (List.mem_map_of_mem Prod.fst hp)
        rcases List.mem_cons.1 hmem with h1 | h1
        · rw [h1]; exact hqk
        · obtain ⟨r, hr, hre⟩ := List.mem_map.1 h1
          rw [← hre]
          exact hq.1 r hr
      · intro p hp
        rcases List.mem_cons.1 hp with h | h
        · rw [h]; exact hwf q (List.mem_cons_self _ _)
        · exact ihwf p h
      · intro x hx
        simp only [List.map_cons, List.mem_cons] at hx ⊢
        rcases hx with h | h
        · exact Or.inr (Or.inl h)
        · rcases List.mem_cons.1 (ihsub x h) with h2 | h2
          · exact Or.inl h2
          · exact Or.inr (Or.inr h2)

theorem setSections_wf (s k v : Str) (l : List (Str × List (Str × Str)))
    (hl : l.Pairwise (fun a b => a.1 ≠ b.1))
    (hwf : ∀ sec ∈ l, secWF sec) (hs : '\n' ∉ s) (hkv : pairWF k v) :
    (setSections s k v l).Pairwise (fun a b => a.1 ≠ b.1) ∧
      (∀ sec ∈ setSections s k v l, secWF sec) := by
  have main : (setSections s k v l).Pairwise (fun a b => a.1 ≠ b.1) ∧
      (∀ sec ∈ setSections s k v l, secWF sec) ∧
      (∀ x ∈ (setSections s k v l).map Prod.fst, x ∈ s :: l.map Prod.fst) := by
    induction l with
    | nil =>
      refine ⟨by simp [setSections], ?_, by simp [setSections]⟩
      intro sec hsec
      have h1 := List.mem_singleton.1 hsec
      rw [h1]
      refine ⟨hs, by simp, ?_⟩
      intro p hp
      have hp' := List.mem_singleton.1 hp
      rw [hp']
      exact hkv
    | cons q rest ih =>
      have hq := List.pairwise_cons.1 hl
      by_cases hqs : q.1 = s
      · simp only [setSections, if_pos hqs]
        have hqwf := hwf q (List.mem_cons_self _ _)
        obtain ⟨hin1, hin2, _⟩ := setInSection_wf k v q.2 hqwf.2.1 hqwf.2.2 hkv
        refine ⟨?_, ?_, ?_⟩
        · rw [List.pairwise_cons]
          exact ⟨fun p hp => hq.1 p hp, hq.2⟩
        · intro sec hsec
          rcases List.mem_cons.1 hsec with h | h
          · rw [h]; exact ⟨hqwf.1, hin1, hin2⟩
          · exact hwf sec (List.mem_cons_of_mem q h)
        · intro x hx
          simp only [List.map_cons, List.mem_cons] at hx ⊢
          rcases hx with h | h
          · exact Or.inr (Or.inl h)
          · exact Or.inr (Or.inr h)
      · simp only [setSections, if_neg hqs]
        obtain ⟨ih1, ih2, ih3⟩ :=
          ih hq.2 (fun p hp => hwf p (List.mem_cons_of_mem q hp))
        refine ⟨?_, ?_, ?_⟩
        · rw [List.pairwise_cons]
          refine ⟨fun p hp => ?_, ih1⟩
          have hmem := ih3 p.1 (List.mem_map_of_mem Prod.fst hp)
          rcases List.mem_cons.1 hmem with h1 | h1
          · rw [h1]; exact hqs
          · obtain ⟨r, hr, hre⟩ := List.mem_map.1 h1
            rw [← hre]
            exact hq.1 r hr
        · intro sec hsec
          rcases List.mem_cons.1 hsec with h | h
          · rw [h]; exact hwf q (List.mem_cons_self _ _)
          · exact ih2 sec h
        · intro x hx
          simp only [List.map_cons, List.mem_cons] at hx ⊢
          rcases hx with h | h
          · exact Or.inr (Or.inl h)
          · rcases List.mem_cons.1 (ih3 x h) with h2 | h2
            · exact Or.inl h2
            · exact Or.inr (Or.inr h2)
  exact ⟨main.1, main.2.1⟩

theorem ensureSection_wf (st : ConfigStore) (n : Str) (hst : storeWF st)
    (hn : '\n' ∉ n) : storeWF (ensureSection st n) := by
  by_cases hmem : st.sections.any (fun sec => decide (sec.1 = n)) = true
  · rw [ensureSection, if_pos hmem]; exact hst
  · rw [ensureSection, if_neg hmem]
    constructor
    · rw [List.pairwise_append]
      refine ⟨hst.1, by simp, ?_⟩
      intro a ha b hb
      have hb' := List.mem_singleton.1 hb
      rw [hb']
      intro he
      exact hmem (List.any_eq_true.2 ⟨a, ha, by rw [decide_eq_true_eq]; exact he⟩)
    · intro sec hsec
      rcases List.mem_append.1 hsec with h | h
      · exact hst.2 sec h
      · have h' := List.mem_singleton.1 h
        rw [h']
        exact ⟨hn, by simp, by simp⟩

theorem setKV_wf (st : ConfigStore) (s k v : Str) (hst : storeWF st)
    (hs : '\n' ∉ s) (hkv : pairWF k v) : storeWF (setKV st s k v) := by
  obtain ⟨h1, h2⟩ := setSections_wf s k v st.sections hst.1 hst.2 hs hkv
  exact ⟨h1, h2⟩

theorem takeWhile_head? (l : Str) (p : Char → Bool) (c : Char)
    (hc : (l.takeWhile p).head? = some c) : l.head? = some c := by
  cases l with
  | nil => cases hc
  | cons a as =>
    rw [List.takeWhile_cons] at hc
    by_cases hpa : p a = true
    · rw [if_pos hpa] at hc
      simp only [List.head?_cons, Option.some.injEq] at hc ⊢
      exact hc
    · rw [if_neg hpa] at hc
      cases hc

theorem loadGo_wf (ls : List Str) (st : ConfigStore) (cur : Option Str)
    (hst : storeWF st) (hcur : ∀ n, cur = some n → '\n' ∉ n)
    (hl : ∀ l ∈ ls, '\n' ∉ l ∧ lstrip l = l) : storeWF (loadGo st cur ls) := by
  induction ls generalizing st cur with
  | nil => exact hst
  | cons l rest ih =>
    have hline := hl l (List.mem_cons_self _ _)
    have hrest : ∀ x ∈ rest, '\n' ∉ x ∧ lstrip x = x :=
      fun x hx => hl x (List.mem_cons_of_mem _ hx)
    by_cases hhdr : l.head? = some '[' ∧ l.getLast? = some ']'
    · simp only [loadGo]
      rw [if_pos hhdr]
      apply ih
      · apply ensureSection_wf _ _ hst
        intro hmem
        exact hline.1 (List.Sublist.mem
          (List.Sublist.mem hmem (List.dropLast_sublist _)) (List.drop_sublist _ _))
      · intro n hn
        simp only [Option.some.injEq] at hn
        rw [← hn]
        intro hmem
        exact hline.1 (List.Sublist.mem
          (List.Sublist.mem hmem (List.dropLast_sublist _)) (List.drop_sublist _ _))
      · exact hrest
    · by_cases hct : l.contains '=' = true
      · cases cur with
        | none =>
          simp only [loadGo, if_neg hhdr, hct, if_true]
          exact ih st none hst (fun n hn => by cases hn) hrest
        | some s =>
          simp only [loadGo, if_neg hhdr, hct, if_true]
          apply ih
          · apply setKV_wf _ _ _ _ hst (hcur s rfl)
            refine ⟨?_, ?_, ?_, ?_, ?_⟩
            · intro hm
              exact hline.1 (List.Sublist.mem hm (List.takeWhile_sublist _))
            · intro hm
              exact hline.1 (List.Sublist.mem hm
                (List.Sublist.trans (List.drop_sublist _ _) (List.dropWhile_sublist _)))
            · intro hm
              have := List.mem_takeWhile_imp hm
              simp at this
            · intro c hc
              exact head_not_ws_of_lstrip_fix l hline.2 c (takeWhile_head? l _ c hc)
            · rw [reconstruct_kv l (mem_of_contains_eq l hct)]
              exact hhdr
          · exact hcur
          · exact hrest
      · simp only [loadGo, if_neg hhdr, if_neg hct]
        exact ih st cur hst hcur hrest

theorem load_wf (T : Str) : storeWF (load T) := by
  apply loadGo_wf
  · exact ⟨List.Pairwise.nil, by simp⟩
  · intro n hn
    cases hn
  · intro l hl
    obtain ⟨m, hm, hml⟩ := List.mem_map.1 hl
    constructor
    · intro hmem
      rw [← hml] at hmem
      exact no_newline_of_mem_splitLines T m hm (mem_of_mem_lstrip hmem)
    · rw [← hml]
      exact lstrip_idem m

theorem renderSecs_no_newline (secs : List (Str × List (Str × Str)))
    (hwf : ∀ sec ∈ secs, secWF sec) : ∀ l ∈ renderSecs secs, '\n' ∉ l := by
  intro l hl
  rw [renderSecs, List.mem_flatten] at hl
  obtain ⟨ls, hls, hlls⟩ := hl
  obtain ⟨sec, hsec, hsecls⟩ := List.mem_map.1 hls
  have hsw := hwf sec hsec
  rw [← hsecls] at hlls
  rcases List.mem_cons.1 hlls with h | h
  · rw [h]
    intro hmem
    rcases List.mem_cons.1 hmem with h1 | h1
    · exact absurd h1 (by decide)
    · rcases List.mem_append.1 h1 with h2 | h2
      · exact hsw.1 h2
      · exact absurd (List.mem_singleton.1 h2) (by decide)
  · obtain ⟨p, hp, hpl⟩ := List.mem_map.1 h
    have hpw := hsw.2.2 p hp
    rw [← hpl]
    intro hmem
    rcases List.mem_append.1 hmem with h1 | h1
    · exact hpw.1 h1
    · rcases List.mem_cons.1 h1 with h2 | h2
      · exact absurd h2 (by decide)
      · exact hpw.2.1 h2

theorem renderSecs_lstrip_fix (secs : List (Str × List (Str × Str)))
    (hwf : ∀ sec ∈ secs, secWF sec) : ∀ l ∈ renderSecs secs, lstrip l = l := by
  intro l hl
  rw [renderSecs, List.mem_flatten] at hl
  obtain ⟨ls, hls, hlls⟩ := hl
  obtain ⟨sec, hsec, hsecls⟩ := List.mem_map.1 hls
  have hsw := hwf sec hsec
  rw [← hsecls] at hlls
  rcases List.mem_cons.1 hlls with h | h
  · rw [h]
    apply lstrip_eq_self_of_head
    intro c hc
    simp only [List.head?_cons, Option.some.injEq] at hc
    rw [← hc]
    decide
  · obtain ⟨p, hp, hpl⟩ := List.mem_map.1 h
    have hpw := hsw.2.2 p hp
    rw [← hpl]
    apply lstrip_eq_self_of_head
    intro c hc
    cases hk : p.1 with
    | nil =>
      rw [show renderPair p = p.1 ++ '=' :: p.2 from rfl, hk] at hc
      simp only [List.nil_append, List.head?_cons, Option.some.injEq] at hc
      rw [← hc]
      decide
    | cons a as =>
      rw [show renderPair p = p.1 ++ '=' :: p.2 from rfl, hk] at hc
      simp only [List.cons_append, List.head?_cons, Option.some.injEq] at hc
      rw [← hc]
      apply hpw.2.2.2.1
      rw [hk]
      rfl

theorem map_lstrip_fix (ls : List Str) (h : ∀ l ∈ ls, lstrip l = l) :
    ls.map lstrip = ls := by
  induction ls with
  | nil => rfl
  | cons l rest ih =>
    rw [List.map_cons, h l (List.mem_cons_self _ _),
      ih (fun x hx => h x (List.mem_cons_of_mem _ hx))]

theorem serialize_load_of_wf (st : ConfigStore) (h : storeWF st) :
    load (serialize st) = st := by
  cases hsec : st.sections with
  | nil =>
    have hser : serialize st = [] := by rw [serialize, hsec]; rfl
    rw [hser]
    show ConfigStore.mk [] = st
    rw [← hsec]
  | cons s0 rest =>
    have hne : renderSecs st.sections ≠ [] := by
      rw [hsec]
      simp [renderSecs, renderSection]
    have hnl := renderSecs_no_newline st.sections h.2
    have hfix := renderSecs_lstrip_fix st.sections h.2
    rw [load, serialize]
    rw [splitLines_joinLines _ hne hnl]
    rw [map_lstrip_fix _ hfix]
    have hrep := replay_secs st.sections [] none (by simpa using h.1) h.2
    simpa using hrep

/-- C7: for every text, serializing the loaded store and re-loading the
result yields the same store: same sections, same keys, same values,
order preserved (the semantic round trip; comment and blank lines are
dropped on load, so byte identity is not claimed). -/
theorem serialize_load_roundtrip (T : Str) :
    load (serialize (load T)) = load T :=
  serialize_load_of_wf (load T) (load_wf T)
